import Mathlib

/-!
# Verification of the Black-Scholes pricing core of `src/app.py`

The repository's only computational core is the function `black_scholes`
(src/app.py, lines 6-13) together with the parameter sweep
`call_prices` / `put_prices` (lines 104-106).  This file embeds that core
over the real numbers (`scipy.stats.norm.cdf` becomes the exact standard
normal CDF, floating point becomes ℝ) and proves the specified properties.

The Python function returns its local variable `price`, which is assigned
only in the `"call"` and `"put"` branches; for any other `option_type` the
variable is unset and the call fails.  The embedding therefore returns an
`Option ℝ`, with `none` for an unrecognized option type.
-/

open MeasureTheory Set Filter Topology intervalIntegral

noncomputable section

/-- Density of the standard normal distribution (mean 0, variance 1),
the derivative of `scipy.stats.norm.cdf`. -/
def normalPDF (t : ℝ) : ℝ := (Real.sqrt (2 * Real.pi))⁻¹ * Real.exp (-(1 / 2) * t ^ 2)

/-- Standard normal cumulative distribution function Φ (mean 0, variance 1),
the model of `scipy.stats.norm.cdf` from src/app.py line 4. -/
def normalCDF (x : ℝ) : ℝ := ∫ t in Iic x, normalPDF t

/-- Embedding of src/app.py line 7:
`d1 = (np.log(S / K) + (r + 0.5 * sigma**2) * T) / (sigma * np.sqrt(T))`. -/
def d1 (S K T r sigma : ℝ) : ℝ :=
  (Real.log (S / K) + (r + 0.5 * sigma ^ 2) * T) / (sigma * Real.sqrt T)

/-- Embedding of src/app.py line 8: `d2 = d1 - sigma * np.sqrt(T)`. -/
def d2 (S K T r sigma : ℝ) : ℝ := d1 S K T r sigma - sigma * Real.sqrt T

/-- Embedding of the `"call"` branch, src/app.py line 10:
`price = S * norm.cdf(d1) - K * np.exp(-r * T) * norm.cdf(d2)`. -/
def callPrice (S K T r sigma : ℝ) : ℝ :=
  S * normalCDF (d1 S K T r sigma) -
    K * Real.exp (-r * T) * normalCDF (d2 S K T r sigma)

/-- Embedding of the `"put"` branch, src/app.py line 12:
`price = K * np.exp(-r * T) * norm.cdf(-d2) - S * norm.cdf(-d1)`. -/
def putPrice (S K T r sigma : ℝ) : ℝ :=
  K * Real.exp (-r * T) * normalCDF (-d2 S K T r sigma) -
    S * normalCDF (-d1 S K T r sigma)

/-- Embedding of `black_scholes` (src/app.py lines 6-13).  The source
dispatches on the string `option_type` (default `"call"`); when neither
branch matches, its local `price` is never assigned and `return price`
fails, which the embedding renders as `none`. -/
def black_scholes (S K T r sigma : ℝ) (option_type : String := "call") : Option ℝ :=
  if option_type = "call" then some (callPrice S K T r sigma)
  else if option_type = "put" then some (putPrice S K T r sigma)
  else none

/-- Embedding of src/app.py line 105:
`call_prices = [black_scholes(s, K, T, r, sigma, "call") for s in S]`. -/
def call_prices (S : List ℝ) (K T r sigma : ℝ) : List (Option ℝ) :=
  S.map fun s => black_scholes s K T r sigma "call"

/-- Embedding of src/app.py line 106:
`put_prices = [black_scholes(s, K, T, r, sigma, "put") for s in S]`. -/
def put_prices (S : List ℝ) (K T r sigma : ℝ) : List (Option ℝ) :=
  S.map fun s => black_scholes s K T r sigma "put"

/-- The formula of spec.md section 4.1, written from the spec's words:
`Call price = S * Φ(d1) - K * exp(-r * T) * Φ(d2)`,
`Put  price = K * exp(-r * T) * Φ(-d2) - S * Φ(-d1)`, with
`d1 = (ln(S / K) + (r + 0.5 * sigma^2) * T) / (sigma * sqrt(T))` and
`d2 = d1 - sigma * sqrt(T)`.  `isCall = true` selects the call. -/
def specPrice (S K T r sigma : ℝ) (isCall : Bool) : ℝ :=
  let d1s : ℝ := (Real.log (S / K) + (r + 0.5 * sigma ^ 2) * T) / (sigma * Real.sqrt T)
  let d2s : ℝ := d1s - sigma * Real.sqrt T
  if isCall then S * normalCDF d1s - K * Real.exp (-r * T) * normalCDF d2s
  else K * Real.exp (-r * T) * normalCDF (-d2s) - S * normalCDF (-d1s)

/-- Partial sum (n terms) of the power series of the antiderivative of
`exp (-(1/2) * t ^ 2)` at 0, used to evaluate `normalCDF` numerically:
term i is `(-1/2)^i * x^(2i+1) / ((2i+1) * i!)`. -/
def gaussSeries (n : ℕ) (x : ℝ) : ℝ :=
  ∑ i in Finset.range n,
    (-(1:ℝ)/2) ^ i * x ^ (2 * i + 1) / ((2 * i + 1 : ℕ) * (Nat.factorial i : ℝ))

/-! ## Basic facts about the standard normal density and CDF -/

lemma normalPDF_nonneg (t : ℝ) : 0 ≤ normalPDF t := by
  unfold normalPDF
  positivity

lemma continuous_normalPDF : Continuous normalPDF := by
  unfold normalPDF
  continuity

lemma integrable_normalPDF : Integrable normalPDF := by
  have h : Integrable fun t : ℝ => Real.exp (-(1 / 2) * t ^ 2) :=
    integrable_exp_neg_mul_sq (by norm_num)
  exact h.const_mul _

lemma sqrt_two_pi_pos : 0 < Real.sqrt (2 * Real.pi) :=
  Real.sqrt_pos.mpr (by positivity)

lemma integral_normalPDF : ∫ t, normalPDF t = 1 := by
  unfold normalPDF
  rw [MeasureTheory.integral_mul_left, integral_gaussian]
  rw [show Real.pi / (1 / 2) = 2 * Real.pi by ring]
  exact inv_mul_cancel₀ (ne_of_gt sqrt_two_pi_pos)

lemma normalCDF_nonneg (x : ℝ) : 0 ≤ normalCDF x :=
  setIntegral_nonneg measurableSet_Iic fun t _ => normalPDF_nonneg t

lemma normalCDF_add_compl (x : ℝ) :
    normalCDF x + ∫ t in Ioi x, normalPDF t = 1 := by
  rw [show Ioi x = (Iic x)ᶜ by simp]
  rw [normalCDF.eq_def, MeasureTheory.integral_add_compl measurableSet_Iic integrable_normalPDF]
  exact integral_normalPDF

lemma normalCDF_le_one (x : ℝ) : normalCDF x ≤ 1 := by
  have h := normalCDF_add_compl x
  have h2 : 0 ≤ ∫ t in Ioi x, normalPDF t :=
    setIntegral_nonneg measurableSet_Ioi fun t _ => normalPDF_nonneg t
  linarith

lemma normalCDF_neg (x : ℝ) : normalCDF (-x) = 1 - normalCDF x := by
  have hrefl : normalCDF (-x) = ∫ t in Ioi x, normalPDF t := by
    rw [normalCDF.eq_def]
    have : ∀ t : ℝ, normalPDF t = normalPDF (-t) := by
      intro t; unfold normalPDF; rw [neg_pow]; norm_num
    calc ∫ t in Iic (-x), normalPDF t = ∫ t in Iic (-x), normalPDF (-t) := by
          exact setIntegral_congr_fun measurableSet_Iic fun t _ => this t
      _ = ∫ t in Ioi (- -x), normalPDF t := integral_comp_neg_Iic (-x) normalPDF
      _ = ∫ t in Ioi x, normalPDF t := by rw [neg_neg]
  have h := normalCDF_add_compl x
  linarith [hrefl]

lemma normalCDF_add_neg (x : ℝ) : normalCDF x + normalCDF (-x) = 1 := by
  rw [normalCDF_neg]; ring

lemma normalCDF_zero : normalCDF 0 = 1 / 2 := by
  have h := normalCDF_add_neg 0
  rw [neg_zero] at h
  linarith

lemma normalCDF_mono {a b : ℝ} (h : a ≤ b) : normalCDF a ≤ normalCDF b := by
  unfold normalCDF
  refine setIntegral_mono_set integrable_normalPDF.integrableOn ?_ ?_
  · exact Eventually.of_forall fun t => normalPDF_nonneg t
  · exact HasSubset.Subset.eventuallyLE (Iic_subset_Iic.mpr h)

lemma normalCDF_sub_of_le {a b : ℝ} (h : a ≤ b) :
    normalCDF b - normalCDF a = ∫ t in a..b, normalPDF t := by
  have hsplit : normalCDF a + ∫ t in Ioc a b, normalPDF t = normalCDF b := by
    rw [normalCDF.eq_def, normalCDF.eq_def, ← Iic_union_Ioc_eq_Iic h]
    rw [MeasureTheory.setIntegral_union (Iic_disjoint_Ioc le_rfl) measurableSet_Ioc
      integrable_normalPDF.integrableOn integrable_normalPDF.integrableOn]
  rw [intervalIntegral.integral_of_le h]
  linarith

lemma normalCDF_eq_add_intervalIntegral (x : ℝ) :
    normalCDF x = normalCDF 0 + ∫ t in (0:ℝ)..x, normalPDF t := by
  rcases le_or_lt 0 x with h | h
  · have := normalCDF_sub_of_le h
    linarith
  · have := normalCDF_sub_of_le h.le
    rw [intervalIntegral.integral_symm] at this
    linarith

lemma hasDerivAt_normalCDF (x : ℝ) : HasDerivAt normalCDF (normalPDF x) x := by
  have h : HasDerivAt (fun u => ∫ t in (0:ℝ)..u, normalPDF t) (normalPDF x) x :=
    (continuous_normalPDF.integral_hasStrictDerivAt 0 x).hasDerivAt
  have h2 := h.const_add (normalCDF 0)
  have hfun : (fun u => normalCDF 0 + ∫ t in (0:ℝ)..u, normalPDF t) = normalCDF := by
    funext u
    exact (normalCDF_eq_add_intervalIntegral u).symm
  rwa [hfun] at h2

/-- Put-call parity holds identically for the embedded formulas, by the
reflection identity of the normal CDF. -/
lemma put_call_parity (S K T r sigma : ℝ) :
    callPrice S K T r sigma - putPrice S K T r sigma =
      S - K * Real.exp (-r * T) := by
  unfold callPrice putPrice
  rw [normalCDF_neg (d1 S K T r sigma), normalCDF_neg (d2 S K T r sigma)]
  ring

lemma zip_map_self {α β : Type} (g : α → β) (l : List α) :
    l.zip (l.map g) = l.map fun s => (s, g s) := by
  induction l with
  | nil => rfl
  | cons a tl ih => rw [List.map_cons, List.zip_cons_cons, ih, List.map_cons]

/-! ## Claim theorems -/

/-- C1: for every input with S>0, K>0, T>0, sigma>0, `black_scholes`
computes exactly the Black-Scholes formula stated in the spec (d1, d2,
call and put expressions, with the stated order of operations and Φ the
standard normal CDF). -/
theorem claim_C1_price_formula (S K T r sigma : ℝ)
    (hS : 0 < S) (hK : 0 < K) (hT : 0 < T) (hsigma : 0 < sigma) :
    black_scholes S K T r sigma "call" = some (specPrice S K T r sigma true) ∧
    black_scholes S K T r sigma "put" = some (specPrice S K T r sigma false) := by
  constructor <;> simp [black_scholes, specPrice, callPrice, putPrice, d1, d2]

/-- Witness for C1 at S=100, K=100, T=1, r=1/20, sigma=1/5. -/
theorem claim_C1_witness :
    black_scholes 100 100 1 (1/20) (1/5) "call" =
      some (specPrice 100 100 1 (1/20) (1/5) true) ∧
    black_scholes 100 100 1 (1/20) (1/5) "put" =
      some (specPrice 100 100 1 (1/20) (1/5) false) :=
  claim_C1_price_formula 100 100 1 (1/20) (1/5)
    (by norm_num) (by norm_num) (by norm_num) (by norm_num)

/-- C2 counterexample: at K=0 the code does not fail with `InvalidParameter`;
it applies the formula unguarded and returns a value (here, with the
embedding's total real arithmetic, `some (100 * Φ (7/20))`; in Python the
division by zero propagates to `inf` and the call returns the float `100.0`).
No validation exists anywhere in `black_scholes`. -/
theorem claim_C2_counterexample :
    black_scholes 100 0 1 (1/20) (1/5) "call" = some (100 * normalCDF (7/20)) := by
  norm_num [black_scholes, callPrice, d1, d2, Real.sqrt_one]

/-- C2 amended: `black_scholes` performs no input validation at all; for
K = 0 the call branch still returns a value, namely the formula evaluated
with `log (S / 0)` collapsing (junk arithmetic) and the discounted-strike
term vanishing.  Eager validation is only a spec recommendation for
reimplementations. -/
theorem claim_C2_amended_no_validation (S T r sigma : ℝ) :
    black_scholes S 0 T r sigma "call" =
      some (S * normalCDF ((r + 0.5 * sigma ^ 2) * T / (sigma * Real.sqrt T))) := by
  norm_num [black_scholes, callPrice, d1, d2]

/-- C3: put-call parity.  For every valid input (S>0, K>0, T>0, sigma>0,
any r), call price minus put price equals S - K*exp(-r*T), exactly, over
real arithmetic. -/
theorem claim_C3_put_call_parity (S K T r sigma : ℝ)
    (hS : 0 < S) (hK : 0 < K) (hT : 0 < T) (hsigma : 0 < sigma) :
    callPrice S K T r sigma - putPrice S K T r sigma =
      S - K * Real.exp (-r * T) :=
  put_call_parity S K T r sigma

/-- Witness for C3 at S=100, K=100, T=1, r=1/20, sigma=1/5. -/
theorem claim_C3_witness :
    callPrice 100 100 1 (1/20) (1/5) - putPrice 100 100 1 (1/20) (1/5) =
      100 - 100 * Real.exp (-(1/20) * 1) :=
  claim_C3_put_call_parity 100 100 1 (1/20) (1/5)
    (by norm_num) (by norm_num) (by norm_num) (by norm_num)

/-- C5: the sweep (the list comprehension `call_prices`, paired with its
domain as the chart consumes it) preserves length and order: the curve has
the domain's length, its S-components are the domain values in order, and
each point pairs S with the result of invoking the pricer on that S. -/
theorem claim_C5_sweep_order_length (dom : List ℝ) (K T r sigma : ℝ)
    (hlen1 : 1 ≤ dom.length) (hlen2 : dom.length ≤ 10000)
    (hpos : ∀ s ∈ dom, 0 < s) :
    (dom.zip (call_prices dom K T r sigma)).length = dom.length ∧
    (dom.zip (call_prices dom K T r sigma)).map Prod.fst = dom ∧
    dom.zip (call_prices dom K T r sigma) =
      dom.map fun s => (s, black_scholes s K T r sigma "call") := by
  unfold call_prices
  rw [zip_map_self]
  refine ⟨by simp, by simp [Function.comp_def], rfl⟩

/-- Witness for C5 on the three-point domain [50, 100, 150]. -/
theorem claim_C5_witness :
    (([50, 100, 150] : List ℝ).zip (call_prices [50, 100, 150] 100 1 (1/20) (1/5))).length =
      ([50, 100, 150] : List ℝ).length ∧
    (([50, 100, 150] : List ℝ).zip (call_prices [50, 100, 150] 100 1 (1/20) (1/5))).map Prod.fst =
      ([50, 100, 150] : List ℝ) ∧
    ([50, 100, 150] : List ℝ).zip (call_prices [50, 100, 150] 100 1 (1/20) (1/5)) =
      ([50, 100, 150] : List ℝ).map fun s => (s, black_scholes s 100 1 (1/20) (1/5) "call") :=
  claim_C5_sweep_order_length [50, 100, 150] 100 1 (1/20) (1/5)
    (by simp) (by simp) (by intro s hs; fin_cases hs <;> norm_num)

/-- C7: for every option-type string other than `"call"` and `"put"`, the
conditional structure of `black_scholes` leaves the result unset (the
embedding returns `none`). -/
theorem claim_C7_unknown_type_none (S K T r sigma : ℝ) (t : String)
    (hc : t ≠ "call") (hp : t ≠ "put") :
    black_scholes S K T r sigma t = none := by
  simp [black_scholes, hc, hp]

/-- Witness for C7 at the unrecognized option type "straddle". -/
theorem claim_C7_witness : black_scholes 1 1 1 1 1 "straddle" = none :=
  claim_C7_unknown_type_none 1 1 1 1 1 "straddle" (by decide) (by decide)

/-- C9: determinism and purity: `black_scholes` is a pure function of its
five numeric inputs and the type selector; equal inputs give equal
results (side effects and external state do not exist in the embedding,
matching the source, which touches no state). -/
theorem claim_C9_deterministic (S K T r sigma S2 K2 T2 r2 sigma2 : ℝ) (t t2 : String)
    (hS : S = S2) (hK : K = K2) (hT : T = T2) (hr : r = r2)
    (hsig : sigma = sigma2) (ht : t = t2) :
    black_scholes S K T r sigma t = black_scholes S2 K2 T2 r2 sigma2 t2 := by
  subst hS hK hT hr hsig ht
  rfl

/-- Witness for C9: two invocations at the same concrete input agree. -/
theorem claim_C9_witness :
    black_scholes 100 100 1 (1/20) (1/5) "put" =
      black_scholes 100 100 1 (1/20) (1/5) "put" :=
  claim_C9_deterministic 100 100 1 (1/20) (1/5) 100 100 1 (1/20) (1/5) "put" "put"
    rfl rfl rfl rfl rfl rfl

/-- C10: the `option_type` parameter defaults to `"call"`: calling
`black_scholes` without it returns the same result as passing `"call"`. -/
theorem claim_C10_default_call (S K T r sigma : ℝ) :
    black_scholes S K T r sigma = black_scholes S K T r sigma "call" := rfl

/-! ## Derivative of the call price in the underlying -/

/-- The classical cancellation identity behind the Black-Scholes delta:
`S * φ(d1) = K * exp(-r*T) * φ(d2)`. -/
lemma gauss_density_identity (S K T r sigma : ℝ)
    (hS : 0 < S) (hK : 0 < K) (hT : 0 < T) (hsigma : 0 < sigma) :
    S * normalPDF (d1 S K T r sigma) =
      K * Real.exp (-r * T) * normalPDF (d2 S K T r sigma) := by
  have hA : 0 < sigma * Real.sqrt T := mul_pos hsigma (Real.sqrt_pos.mpr hT)
  have hA2 : (sigma * Real.sqrt T) ^ 2 = sigma ^ 2 * T := by
    rw [mul_pow, Real.sq_sqrt hT.le]
  have hd1A : d1 S K T r sigma * (sigma * Real.sqrt T)
      = Real.log (S / K) + (r + 0.5 * sigma ^ 2) * T :=
    div_mul_cancel₀ _ hA.ne'
  have hd2 : d2 S K T r sigma = d1 S K T r sigma - sigma * Real.sqrt T := rfl
  have key : -(1 / 2) * d1 S K T r sigma ^ 2
      = -(1 / 2) * d2 S K T r sigma ^ 2 + (-Real.log (S / K) + -(r * T)) := by
    rw [hd2]
    linear_combination -hd1A + (1 / 2) * hA2
  unfold normalPDF
  rw [key, Real.exp_add, Real.exp_add, Real.exp_neg, Real.exp_neg,
    Real.exp_log (div_pos hS hK)]
  rw [show -r * T = -(r * T) by ring, Real.exp_neg]
  field_simp
  ring

lemma hasDerivAt_d1 (K T r sigma S : ℝ) (hS : 0 < S) (hK : 0 < K) :
    HasDerivAt (fun s => d1 s K T r sigma) (1 / S / (sigma * Real.sqrt T)) S := by
  have h1 : HasDerivAt (fun s : ℝ => s / K) (1 / K) S := (hasDerivAt_id S).div_const K
  have h2 := h1.log (div_pos hS hK).ne'
  have h3 := (h2.add_const ((r + 0.5 * sigma ^ 2) * T)).div_const (sigma * Real.sqrt T)
  have heq : 1 / K / (S / K) = 1 / S := by
    field_simp
  rw [heq] at h3
  simp only [d1]
  exact h3

lemma hasDerivAt_callPrice (K T r sigma S : ℝ)
    (hS : 0 < S) (hK : 0 < K) (hT : 0 < T) (hsigma : 0 < sigma) :
    HasDerivAt (fun s => callPrice s K T r sigma)
      (normalCDF (d1 S K T r sigma)) S := by
  have hA : 0 < sigma * Real.sqrt T := mul_pos hsigma (Real.sqrt_pos.mpr hT)
  have hd1 := hasDerivAt_d1 K T r sigma S hS hK
  have hd2 : HasDerivAt (fun s => d2 s K T r sigma)
      (1 / S / (sigma * Real.sqrt T)) S := by
    simp only [d2]
    exact hd1.sub_const (sigma * Real.sqrt T)
  have hphi1 : HasDerivAt (fun s => normalCDF (d1 s K T r sigma))
      (normalPDF (d1 S K T r sigma) * (1 / S / (sigma * Real.sqrt T))) S :=
    (hasDerivAt_normalCDF (d1 S K T r sigma)).comp S hd1
  have hphi2 : HasDerivAt (fun s => normalCDF (d2 s K T r sigma))
      (normalPDF (d2 S K T r sigma) * (1 / S / (sigma * Real.sqrt T))) S :=
    (hasDerivAt_normalCDF (d2 S K T r sigma)).comp S hd2
  have hterm1 : HasDerivAt (fun s => s * normalCDF (d1 s K T r sigma))
      (1 * normalCDF (d1 S K T r sigma) +
        S * (normalPDF (d1 S K T r sigma) * (1 / S / (sigma * Real.sqrt T)))) S :=
    (hasDerivAt_id S).mul hphi1
  have hterm2 : HasDerivAt
      (fun s => K * Real.exp (-r * T) * normalCDF (d2 s K T r sigma))
      (K * Real.exp (-r * T) *
        (normalPDF (d2 S K T r sigma) * (1 / S / (sigma * Real.sqrt T)))) S :=
    hphi2.const_mul _
  have h := hterm1.sub hterm2
  have hkey := gauss_density_identity S K T r sigma hS hK hT hsigma
  simp only [callPrice]
  convert h using 1
  rw [show S * (normalPDF (d1 S K T r sigma) * (1 / S / (sigma * Real.sqrt T)))
      = S * normalPDF (d1 S K T r sigma) * (1 / S / (sigma * Real.sqrt T)) from by ring]
  rw [hkey]
  ring

/-- Mean-value bounds for the call price as a function of the underlying:
on `S1 ≤ S2` (both positive) the increment lies between `0` and `S2 - S1`,
because the derivative is `Φ(d1) ∈ [0, 1]`. -/
lemma callPrice_diff_bounds (K T r sigma S1 S2 : ℝ)
    (hK : 0 < K) (hT : 0 < T) (hsigma : 0 < sigma)
    (hS1 : 0 < S1) (h12 : S1 ≤ S2) :
    0 ≤ callPrice S2 K T r sigma - callPrice S1 K T r sigma ∧
      callPrice S2 K T r sigma - callPrice S1 K T r sigma ≤ S2 - S1 := by
  rcases eq_or_lt_of_le h12 with heq | hlt
  · rw [heq]
    simp
  · obtain ⟨c, hc, hslope⟩ :=
      exists_hasDerivAt_eq_slope (fun s => callPrice s K T r sigma)
        (fun s => normalCDF (d1 s K T r sigma)) hlt
        (fun s hs => (hasDerivAt_callPrice K T r sigma s
          (lt_of_lt_of_le hS1 hs.1) hK hT hsigma).continuousAt.continuousWithinAt)
        (fun x hx => hasDerivAt_callPrice K T r sigma x
          (hS1.trans hx.1) hK hT hsigma)
    have h0 : 0 ≤ normalCDF (d1 c K T r sigma) := normalCDF_nonneg _
    have h1 : normalCDF (d1 c K T r sigma) ≤ 1 := normalCDF_le_one _
    have hpos : 0 < S2 - S1 := sub_pos.mpr hlt
    have heq2 : callPrice S2 K T r sigma - callPrice S1 K T r sigma
        = normalCDF (d1 c K T r sigma) * (S2 - S1) := by
      rw [hslope]
      field_simp
    constructor
    · rw [heq2]
      positivity
    · rw [heq2]
      nlinarith

/-- C4: monotonicity in the underlying: with K>0, T>0, sigma>0 fixed and
0 < S1 ≤ S2, the call price is non-decreasing and the put price is
non-increasing in S. -/
theorem claim_C4_monotonicity (K T r sigma S1 S2 : ℝ)
    (hK : 0 < K) (hT : 0 < T) (hsigma : 0 < sigma)
    (hS1 : 0 < S1) (h12 : S1 ≤ S2) :
    callPrice S1 K T r sigma ≤ callPrice S2 K T r sigma ∧
      putPrice S2 K T r sigma ≤ putPrice S1 K T r sigma := by
  obtain ⟨hlow, hhigh⟩ := callPrice_diff_bounds K T r sigma S1 S2 hK hT hsigma hS1 h12
  have p1 := put_call_parity S1 K T r sigma
  have p2 := put_call_parity S2 K T r sigma
  constructor <;> linarith

/-- Witness for C4 at K=100, T=1, r=1/20, sigma=1/5, S1=100, S2=120. -/
theorem claim_C4_witness :
    callPrice 100 100 1 (1/20) (1/5) ≤ callPrice 120 100 1 (1/20) (1/5) ∧
      putPrice 120 100 1 (1/20) (1/5) ≤ putPrice 100 100 1 (1/20) (1/5) :=
  claim_C4_monotonicity 100 1 (1/20) (1/5) 100 120
    (by norm_num) (by norm_num) (by norm_num) (by norm_num) (by norm_num)

/-! ## Vanishing of the call price as the underlying tends to zero -/

/-- Crude tail bound: left of -2 the gaussian density is below `exp`, so
the CDF is below a multiple of `exp`. -/
lemma normalCDF_le_exp {x : ℝ} (hx : x ≤ -2) :
    normalCDF x ≤ (Real.sqrt (2 * Real.pi))⁻¹ * Real.exp x := by
  have hmono : ∀ t ∈ Iic x, normalPDF t ≤ (Real.sqrt (2 * Real.pi))⁻¹ * Real.exp t := by
    intro t ht
    have ht2 : t ≤ -2 := le_trans ht hx
    have harg : -(1 / 2) * t ^ 2 ≤ t := by nlinarith
    exact mul_le_mul_of_nonneg_left (Real.exp_le_exp.mpr harg)
      (inv_nonneg.mpr (Real.sqrt_nonneg _))
  have hint : ∫ t in Iic x, normalPDF t ≤
      ∫ t in Iic x, (Real.sqrt (2 * Real.pi))⁻¹ * Real.exp t := by
    refine setIntegral_mono_on integrable_normalPDF.integrableOn
      ((integrableOn_exp_Iic x).const_mul _) measurableSet_Iic hmono
  calc normalCDF x ≤ ∫ t in Iic x, (Real.sqrt (2 * Real.pi))⁻¹ * Real.exp t := hint
    _ = (Real.sqrt (2 * Real.pi))⁻¹ * ∫ t in Iic x, Real.exp t :=
        MeasureTheory.integral_mul_left _ _
    _ = (Real.sqrt (2 * Real.pi))⁻¹ * Real.exp x := by rw [integral_exp_Iic]

lemma tendsto_normalCDF_atBot : Tendsto normalCDF atBot (𝓝 0) := by
  have hg : Tendsto (fun x : ℝ => (Real.sqrt (2 * Real.pi))⁻¹ * Real.exp x) atBot (𝓝 0) := by
    have h := Real.tendsto_exp_atBot.const_mul ((Real.sqrt (2 * Real.pi))⁻¹)
    simpa using h
  refine squeeze_zero' (Eventually.of_forall fun x => normalCDF_nonneg x) ?_ hg
  filter_upwards [eventually_le_atBot (-2 : ℝ)] with x hx
  exact normalCDF_le_exp hx

lemma tendsto_callPrice_nhdsWithin_zero (K T r sigma : ℝ)
    (hK : 0 < K) (hT : 0 < T) (hsigma : 0 < sigma) :
    Tendsto (fun s => callPrice s K T r sigma) (𝓝[>] (0:ℝ)) (𝓝 0) := by
  have hA : 0 < sigma * Real.sqrt T := mul_pos hsigma (Real.sqrt_pos.mpr hT)
  have h1 : Tendsto (fun s : ℝ => s * normalCDF (d1 s K T r sigma))
      (𝓝[>] (0:ℝ)) (𝓝 0) := by
    refine squeeze_zero' ?_ ?_ (tendsto_id.mono_right nhdsWithin_le_nhds)
    · filter_upwards [eventually_mem_nhdsWithin] with s hs
      exact mul_nonneg (le_of_lt hs) (normalCDF_nonneg _)
    · filter_upwards [eventually_mem_nhdsWithin] with s hs
      exact mul_le_of_le_one_right (le_of_lt hs) (normalCDF_le_one _)
  have hlog : Tendsto (fun s : ℝ => Real.log (s / K)) (𝓝[>] (0:ℝ)) atBot := by
    have hbase : Tendsto (fun s : ℝ => Real.log s + -Real.log K)
        (𝓝[>] (0:ℝ)) atBot :=
      tendsto_atBot_add_const_right _ (-Real.log K) Real.tendsto_log_nhdsWithin_zero_right
    refine hbase.congr' ?_
    filter_upwards [eventually_mem_nhdsWithin] with s hs
    rw [Real.log_div (ne_of_gt hs) hK.ne']
    ring
  have hd2 : Tendsto (fun s => d2 s K T r sigma) (𝓝[>] (0:ℝ)) atBot := by
    have hdiv : Tendsto
        (fun s : ℝ => (Real.log (s / K) + (r + 0.5 * sigma ^ 2) * T) / (sigma * Real.sqrt T))
        (𝓝[>] (0:ℝ)) atBot :=
      (tendsto_atBot_add_const_right _ ((r + 0.5 * sigma ^ 2) * T) hlog).atBot_div_const hA
    have := tendsto_atBot_add_const_right _ (-(sigma * Real.sqrt T)) hdiv
    simp only [d2, d1]
    simpa [sub_eq_add_neg] using this
  have h2 : Tendsto
      (fun s => K * Real.exp (-r * T) * normalCDF (d2 s K T r sigma))
      (𝓝[>] (0:ℝ)) (𝓝 0) := by
    have := (tendsto_normalCDF_atBot.comp hd2).const_mul (K * Real.exp (-r * T))
    simpa [Function.comp_def] using this
  have hsub := h1.sub h2
  simp only [sub_zero] at hsub
  exact hsub

lemma callPrice_nonneg (S K T r sigma : ℝ)
    (hS : 0 < S) (hK : 0 < K) (hT : 0 < T) (hsigma : 0 < sigma) :
    0 ≤ callPrice S K T r sigma := by
  have hmono : ∀ᶠ s in 𝓝[>] (0:ℝ), callPrice s K T r sigma ≤ callPrice S K T r sigma := by
    filter_upwards [Ioo_mem_nhdsWithin_Ioi ⟨le_refl (0:ℝ), hS⟩] with s hs
    have h := (callPrice_diff_bounds K T r sigma s S hK hT hsigma hs.1 hs.2.le).1
    linarith
  exact le_of_tendsto (tendsto_callPrice_nhdsWithin_zero K T r sigma hK hT hsigma) hmono

/-- Black-Scholes put-call duality: the put at (S, K, r) is the call at
(K*exp(-r*T), S, 0), with the same T and sigma. -/
lemma putPrice_eq_callPrice_dual (S K T r sigma : ℝ)
    (hS : 0 < S) (hK : 0 < K) (hT : 0 < T) (hsigma : 0 < sigma) :
    putPrice S K T r sigma = callPrice (K * Real.exp (-r * T)) S T 0 sigma := by
  have hA : 0 < sigma * Real.sqrt T := mul_pos hsigma (Real.sqrt_pos.mpr hT)
  have hA2 : (sigma * Real.sqrt T) ^ 2 = sigma ^ 2 * T := by
    rw [mul_pow, Real.sq_sqrt hT.le]
  have hd1pair : -d2 S K T r sigma = d1 (K * Real.exp (-r * T)) S T 0 sigma := by
    simp only [d1, d2]
    rw [Real.log_div (show (0:ℝ) < K * Real.exp (-r * T) by positivity).ne' hS.ne',
      Real.log_mul hK.ne' (Real.exp_ne_zero _), Real.log_exp,
      Real.log_div hS.ne' hK.ne']
    field_simp
    linear_combination hA2
  have hd2pair : -d1 S K T r sigma = d2 (K * Real.exp (-r * T)) S T 0 sigma := by
    simp only [d2]
    rw [← hd1pair]
    simp only [d2]
    ring
  unfold callPrice putPrice
  rw [← hd1pair, ← hd2pair]
  norm_num

/-- C8: non-negativity: for every S>0, K>0, T>0, sigma>0 and any r, both
the call and the put formula values are non-negative (no clamping is
involved: these are the raw formula values). -/
theorem claim_C8_nonneg (S K T r sigma : ℝ)
    (hS : 0 < S) (hK : 0 < K) (hT : 0 < T) (hsigma : 0 < sigma) :
    0 ≤ callPrice S K T r sigma ∧ 0 ≤ putPrice S K T r sigma := by
  refine ⟨callPrice_nonneg S K T r sigma hS hK hT hsigma, ?_⟩
  rw [putPrice_eq_callPrice_dual S K T r sigma hS hK hT hsigma]
  exact callPrice_nonneg _ _ _ _ _ (by positivity) hS hT hsigma

/-- Witness for C8 at S=100, K=100, T=1, r=1/20, sigma=1/5. -/
theorem claim_C8_witness :
    0 ≤ callPrice 100 100 1 (1/20) (1/5) ∧ 0 ≤ putPrice 100 100 1 (1/20) (1/5) :=
  claim_C8_nonneg 100 100 1 (1/20) (1/5)
    (by norm_num) (by norm_num) (by norm_num) (by norm_num)

/-! ## Numerical evaluation of the normal CDF via its power series -/

lemma normalPDF_le (t : ℝ) : normalPDF t ≤ (Real.sqrt (2 * Real.pi))⁻¹ := by
  unfold normalPDF
  have h : Real.exp (-(1 / 2) * t ^ 2) ≤ 1 :=
    Real.exp_le_one_iff.mpr (by nlinarith [sq_nonneg t])
  have h2 := mul_le_mul_of_nonneg_left h (inv_nonneg.mpr (Real.sqrt_nonneg (2 * Real.pi)))
  simpa using h2

lemma normalCDF_lipschitz {a b : ℝ} (h : a ≤ b) :
    normalCDF b - normalCDF a ≤ (Real.sqrt (2 * Real.pi))⁻¹ * (b - a) := by
  rw [normalCDF_sub_of_le h]
  have h1 : IntervalIntegrable normalPDF volume a b :=
    Continuous.intervalIntegrable continuous_normalPDF a b
  have h2 : IntervalIntegrable (fun _ : ℝ => (Real.sqrt (2 * Real.pi))⁻¹) volume a b :=
    intervalIntegrable_const
  calc ∫ t in a..b, normalPDF t
      ≤ ∫ t in a..b, (Real.sqrt (2 * Real.pi))⁻¹ :=
        intervalIntegral.integral_mono_on h h1 h2 fun t _ => normalPDF_le t
    _ = (b - a) * (Real.sqrt (2 * Real.pi))⁻¹ := by
        rw [intervalIntegral.integral_const, smul_eq_mul]
    _ = (Real.sqrt (2 * Real.pi))⁻¹ * (b - a) := by ring

lemma integral_gaussSeries_poly (n : ℕ) (x : ℝ) :
    (∫ t in (0:ℝ)..x,
      ∑ i in Finset.range n, (-(1 / 2) * t ^ 2) ^ i / (Nat.factorial i : ℝ)) =
      gaussSeries n x := by
  rw [intervalIntegral.integral_finset_sum
    (fun i _ => Continuous.intervalIntegrable (by continuity) 0 x)]
  unfold gaussSeries
  refine Finset.sum_congr rfl fun i _ => ?_
  have hfun : (fun t : ℝ => (-(1 / 2) * t ^ 2) ^ i / (Nat.factorial i : ℝ))
      = fun t : ℝ => ((-(1:ℝ) / 2) ^ i / (Nat.factorial i : ℝ)) * t ^ (2 * i) := by
    funext t
    rw [mul_pow, ← pow_mul]
    ring
  rw [hfun, intervalIntegral.integral_const_mul, integral_pow,
    zero_pow (by omega : 2 * i + 1 ≠ 0)]
  have h1 : ((2 * i + 1 : ℕ) : ℝ) ≠ 0 := by positivity
  have h2 : ((Nat.factorial i : ℕ) : ℝ) ≠ 0 :=
    Nat.cast_ne_zero.mpr (Nat.factorial_ne_zero i)
  have h3 : (2 * (i:ℝ) + 1) ≠ 0 := by positivity
  push_cast
  rw [sub_zero]
  rw [div_mul_eq_mul_div, mul_div_assoc, div_div]
  ring

lemma gauss_integral_series_bound (x : ℝ) (hx : 0 ≤ x) (hx2 : x ^ 2 ≤ 2)
    (n : ℕ) (hn : 0 < n) :
    |(∫ t in (0:ℝ)..x, Real.exp (-(1 / 2) * t ^ 2)) - gaussSeries n x| ≤
      (x ^ 2 / 2) ^ n * ((n + 1 : ℝ) / ((Nat.factorial n : ℝ) * n)) * x := by
  have hint1 : IntervalIntegrable (fun t : ℝ => Real.exp (-(1 / 2) * t ^ 2)) volume 0 x :=
    Continuous.intervalIntegrable (by continuity) 0 x
  have hint2 : IntervalIntegrable
      (fun t : ℝ => ∑ i in Finset.range n, (-(1 / 2) * t ^ 2) ^ i / (Nat.factorial i : ℝ))
      volume 0 x :=
    Continuous.intervalIntegrable (by continuity) 0 x
  rw [← integral_gaussSeries_poly n x, ← intervalIntegral.integral_sub hint1 hint2]
  have hpt : ∀ t ∈ Ι (0:ℝ) x,
      ‖Real.exp (-(1 / 2) * t ^ 2) -
        ∑ i in Finset.range n, (-(1 / 2) * t ^ 2) ^ i / (Nat.factorial i : ℝ)‖ ≤
      (x ^ 2 / 2) ^ n * ((n + 1 : ℝ) / ((Nat.factorial n : ℝ) * n)) := by
    intro t ht
    rw [Set.uIoc_of_le hx] at ht
    have ht2 : t ^ 2 ≤ x ^ 2 := by nlinarith [ht.1, ht.2]
    have habs : |(-(1 / 2) * t ^ 2 : ℝ)| ≤ 1 := by
      rw [abs_of_nonpos (by nlinarith [sq_nonneg t])]
      nlinarith
    have h := @Real.exp_bound (-(1 / 2) * t ^ 2) habs n hn
    rw [Real.norm_eq_abs]
    refine le_trans h ?_
    have hpow : |(-(1 / 2) * t ^ 2 : ℝ)| ^ n ≤ (x ^ 2 / 2) ^ n := by
      apply pow_le_pow_left (abs_nonneg _) _ n
      rw [abs_of_nonpos (by nlinarith [sq_nonneg t])]
      nlinarith
    have hfactor : (0:ℝ) ≤ (n.succ : ℝ) / ((Nat.factorial n : ℝ) * n) := by positivity
    calc |(-(1 / 2) * t ^ 2 : ℝ)| ^ n * ((n.succ : ℝ) / ((Nat.factorial n : ℝ) * n))
        ≤ (x ^ 2 / 2) ^ n * ((n.succ : ℝ) / ((Nat.factorial n : ℝ) * n)) :=
          mul_le_mul_of_nonneg_right hpow hfactor
      _ = (x ^ 2 / 2) ^ n * ((n + 1 : ℝ) / ((Nat.factorial n : ℝ) * n)) := by
          push_cast
          ring
  have hb := intervalIntegral.norm_integral_le_of_norm_le_const hpt
  rw [Real.norm_eq_abs, sub_zero, abs_of_nonneg hx] at hb
  exact hb

lemma normalCDF_poly_bound (x : ℝ) (hx : 0 ≤ x) (hx2 : x ^ 2 ≤ 2)
    (n : ℕ) (hn : 0 < n) :
    |normalCDF x - (1 / 2 + (Real.sqrt (2 * Real.pi))⁻¹ * gaussSeries n x)| ≤
      (Real.sqrt (2 * Real.pi))⁻¹ *
        ((x ^ 2 / 2) ^ n * ((n + 1 : ℝ) / ((Nat.factorial n : ℝ) * n)) * x) := by
  have hPhi : normalCDF x = 1 / 2 +
      (Real.sqrt (2 * Real.pi))⁻¹ * ∫ t in (0:ℝ)..x, Real.exp (-(1 / 2) * t ^ 2) := by
    rw [normalCDF_eq_add_intervalIntegral x, normalCDF_zero]
    congr 1
    unfold normalPDF
    rw [intervalIntegral.integral_const_mul]
  rw [hPhi]
  rw [show (1 / 2 + (Real.sqrt (2 * Real.pi))⁻¹ *
        (∫ t in (0:ℝ)..x, Real.exp (-(1 / 2) * t ^ 2))) -
      (1 / 2 + (Real.sqrt (2 * Real.pi))⁻¹ * gaussSeries n x) =
      (Real.sqrt (2 * Real.pi))⁻¹ *
        ((∫ t in (0:ℝ)..x, Real.exp (-(1 / 2) * t ^ 2)) - gaussSeries n x) from by ring]
  rw [abs_mul, abs_of_nonneg (inv_nonneg.mpr (Real.sqrt_nonneg _))]
  exact mul_le_mul_of_nonneg_left (gauss_integral_series_bound x hx hx2 n hn)
    (inv_nonneg.mpr (Real.sqrt_nonneg _))

/-! ## Concrete numeric bounds -/

lemma sqrt_two_pi_bounds :
    (2.5066282 : ℝ) < Real.sqrt (2 * Real.pi) ∧
      Real.sqrt (2 * Real.pi) < (2.5066283 : ℝ) := by
  constructor
  · rw [show (2.5066282:ℝ) = Real.sqrt (2.5066282 ^ 2) from
      (Real.sqrt_sq (by norm_num)).symm]
    apply Real.sqrt_lt_sqrt (by positivity)
    nlinarith [Real.pi_gt_d20]
  · rw [show (2.5066283:ℝ) = Real.sqrt (2.5066283 ^ 2) from
      (Real.sqrt_sq (by norm_num)).symm]
    apply Real.sqrt_lt_sqrt (by positivity)
    nlinarith [Real.pi_lt_d20]

lemma inv_sqrt_two_pi_lb : (0.3989422 : ℝ) < (Real.sqrt (2 * Real.pi))⁻¹ := by
  obtain ⟨h1, h2⟩ := sqrt_two_pi_bounds
  have hpos := sqrt_two_pi_pos
  have hinv : (Real.sqrt (2 * Real.pi))⁻¹ * Real.sqrt (2 * Real.pi) = 1 :=
    inv_mul_cancel₀ hpos.ne'
  nlinarith

lemma inv_sqrt_two_pi_ub : (Real.sqrt (2 * Real.pi))⁻¹ < (0.3989423 : ℝ) := by
  obtain ⟨h1, h2⟩ := sqrt_two_pi_bounds
  have hpos := sqrt_two_pi_pos
  have hinv : (Real.sqrt (2 * Real.pi))⁻¹ * Real.sqrt (2 * Real.pi) = 1 :=
    inv_mul_cancel₀ hpos.ne'
  nlinarith [inv_pos.mpr hpos]

lemma exp_neg_twentieth_bounds :
    (0.95122942 : ℝ) < Real.exp (-(1/20)) ∧ Real.exp (-(1/20)) < (0.95122943 : ℝ) := by
  have habs : |(-(1/20) : ℝ)| ≤ 1 := by
    rw [abs_of_nonpos (by norm_num)]
    norm_num
  have h := @Real.exp_bound (-(1/20)) habs 6 (by norm_num)
  rw [abs_of_nonpos (by norm_num : (-(1/20):ℝ) ≤ 0)] at h
  simp only [Finset.sum_range_succ, Finset.sum_range_zero, Nat.factorial] at h
  rw [abs_le] at h
  obtain ⟨h1, h2⟩ := h
  norm_num at h1 h2
  constructor <;> linarith

lemma log_six_fifths_bounds :
    (0.18232 : ℝ) < Real.log (6/5) ∧ Real.log (6/5) < (0.182322 : ℝ) := by
  have habs1 : |(0.18232 : ℝ)| ≤ 1 := by rw [abs_of_nonneg] <;> norm_num
  have h1 := @Real.exp_bound (0.18232 : ℝ) habs1 6 (by norm_num)
  rw [abs_of_nonneg (by norm_num : (0:ℝ) ≤ 0.18232)] at h1
  simp only [Finset.sum_range_succ, Finset.sum_range_zero, Nat.factorial] at h1
  rw [abs_le] at h1
  obtain ⟨h1a, h1b⟩ := h1
  norm_num at h1a h1b
  have habs2 : |(0.182322 : ℝ)| ≤ 1 := by rw [abs_of_nonneg] <;> norm_num
  have h2 := @Real.exp_bound (0.182322 : ℝ) habs2 6 (by norm_num)
  rw [abs_of_nonneg (by norm_num : (0:ℝ) ≤ 0.182322)] at h2
  simp only [Finset.sum_range_succ, Finset.sum_range_zero, Nat.factorial] at h2
  rw [abs_le] at h2
  obtain ⟨h2a, h2b⟩ := h2
  norm_num at h2a h2b
  constructor
  · apply (Real.lt_log_iff_exp_lt (by norm_num : (0:ℝ) < 6/5)).mpr
    linarith
  · apply (Real.log_lt_iff_lt_exp (by norm_num : (0:ℝ) < 6/5)).mpr
    linarith

lemma normalCDF_35_bounds :
    (0.636830 : ℝ) < normalCDF (7/20) ∧ normalCDF (7/20) < (0.636831 : ℝ) := by
  have hcl := inv_sqrt_two_pi_lb
  have hcu := inv_sqrt_two_pi_ub
  have hcpos : (0:ℝ) < (Real.sqrt (2 * Real.pi))⁻¹ := inv_pos.mpr sqrt_two_pi_pos
  have hb := normalCDF_poly_bound (7/20) (by norm_num) (by norm_num) 5 (by norm_num)
  have hPl : (0.3429835 : ℝ) < gaussSeries 5 (7/20) := by
    simp only [gaussSeries, Finset.sum_range_succ, Finset.sum_range_zero, Nat.factorial]
    norm_num
  have hPu : gaussSeries 5 (7/20) < (0.3429836 : ℝ) := by
    simp only [gaussSeries, Finset.sum_range_succ, Finset.sum_range_zero, Nat.factorial]
    norm_num
  have hBle : ((7/20:ℝ) ^ 2 / 2) ^ 5 * (((5:ℕ) + 1 : ℝ) / ((Nat.factorial 5 : ℝ) * (5:ℕ))) * (7/20)
      ≤ 1/100000000 := by
    norm_num [Nat.factorial]
  have hb2 := le_trans hb (mul_le_mul_of_nonneg_left hBle hcpos.le)
  rw [abs_le] at hb2
  obtain ⟨hl, hr⟩ := hb2
  have hcPu : (Real.sqrt (2 * Real.pi))⁻¹ * gaussSeries 5 (7/20)
      < 0.3989423 * 0.3429836 :=
    mul_lt_mul'' hcu hPu hcpos.le (by linarith)
  have hcPl : (0.3989422 : ℝ) * 0.3429835
      < (Real.sqrt (2 * Real.pi))⁻¹ * gaussSeries 5 (7/20) :=
    mul_lt_mul'' hcl hPl (by norm_num) (by norm_num)
  have hcq : (Real.sqrt (2 * Real.pi))⁻¹ * (1/100000000) ≤ (0.3989423:ℝ)/100000000 := by
    nlinarith
  constructor <;> nlinarith

lemma normalCDF_15_bounds :
    (0.559617 : ℝ) < normalCDF (3/20) ∧ normalCDF (3/20) < (0.559618 : ℝ) := by
  have hcl := inv_sqrt_two_pi_lb
  have hcu := inv_sqrt_two_pi_ub
  have hcpos : (0:ℝ) < (Real.sqrt (2 * Real.pi))⁻¹ := inv_pos.mpr sqrt_two_pi_pos
  have hb := normalCDF_poly_bound (3/20) (by norm_num) (by norm_num) 4 (by norm_num)
  have hPl : (0.1494393 : ℝ) < gaussSeries 4 (3/20) := by
    simp only [gaussSeries, Finset.sum_range_succ, Finset.sum_range_zero, Nat.factorial]
    norm_num
  have hPu : gaussSeries 4 (3/20) < (0.1494394 : ℝ) := by
    simp only [gaussSeries, Finset.sum_range_succ, Finset.sum_range_zero, Nat.factorial]
    norm_num
  have hBle : ((3/20:ℝ) ^ 2 / 2) ^ 4 * (((4:ℕ) + 1 : ℝ) / ((Nat.factorial 4 : ℝ) * (4:ℕ))) * (3/20)
      ≤ 1/1000000000 := by
    norm_num [Nat.factorial]
  have hb2 := le_trans hb (mul_le_mul_of_nonneg_left hBle hcpos.le)
  rw [abs_le] at hb2
  obtain ⟨hl, hr⟩ := hb2
  have hcPu : (Real.sqrt (2 * Real.pi))⁻¹ * gaussSeries 4 (3/20)
      < 0.3989423 * 0.1494394 :=
    mul_lt_mul'' hcu hPu hcpos.le (by linarith)
  have hcPl : (0.3989422 : ℝ) * 0.1494393
      < (Real.sqrt (2 * Real.pi))⁻¹ * gaussSeries 4 (3/20) :=
    mul_lt_mul'' hcl hPl (by norm_num) (by norm_num)
  have hcq : (Real.sqrt (2 * Real.pi))⁻¹ * (1/1000000000) ≤ (0.3989423:ℝ)/1000000000 := by
    nlinarith
  constructor <;> nlinarith

lemma normalCDF_12616_bounds :
    (0.896453 : ℝ) < normalCDF (1.2616) ∧ normalCDF (1.2616) < (0.896454 : ℝ) := by
  have hcl := inv_sqrt_two_pi_lb
  have hcu := inv_sqrt_two_pi_ub
  have hcpos : (0:ℝ) < (Real.sqrt (2 * Real.pi))⁻¹ := inv_pos.mpr sqrt_two_pi_pos
  have hb := normalCDF_poly_bound (1.2616) (by norm_num) (by norm_num) 9 (by norm_num)
  have hPl : (0.9937618 : ℝ) < gaussSeries 9 (1.2616) := by
    simp only [gaussSeries, Finset.sum_range_succ, Finset.sum_range_zero, Nat.factorial]
    norm_num
  have hPu : gaussSeries 9 (1.2616) < (0.9937619 : ℝ) := by
    simp only [gaussSeries, Finset.sum_range_succ, Finset.sum_range_zero, Nat.factorial]
    norm_num
  have hBle : ((1.2616:ℝ) ^ 2 / 2) ^ 9 * (((9:ℕ) + 1 : ℝ) / ((Nat.factorial 9 : ℝ) * (9:ℕ))) * (1.2616)
      ≤ 1/2000000 := by
    norm_num [Nat.factorial]
  have hb2 := le_trans hb (mul_le_mul_of_nonneg_left hBle hcpos.le)
  rw [abs_le] at hb2
  obtain ⟨hl, hr⟩ := hb2
  have hcPu : (Real.sqrt (2 * Real.pi))⁻¹ * gaussSeries 9 (1.2616)
      < 0.3989423 * 0.9937619 :=
    mul_lt_mul'' hcu hPu hcpos.le (by linarith)
  have hcPl : (0.3989422 : ℝ) * 0.9937618
      < (Real.sqrt (2 * Real.pi))⁻¹ * gaussSeries 9 (1.2616) :=
    mul_lt_mul'' hcl hPl (by norm_num) (by norm_num)
  have hcq : (Real.sqrt (2 * Real.pi))⁻¹ * (1/2000000) ≤ (0.3989423:ℝ)/2000000 := by
    nlinarith
  constructor <;> nlinarith

lemma normalCDF_10616_bounds :
    (0.855791 : ℝ) < normalCDF (1.0616) ∧ normalCDF (1.0616) < (0.855792 : ℝ) := by
  have hcl := inv_sqrt_two_pi_lb
  have hcu := inv_sqrt_two_pi_ub
  have hcpos : (0:ℝ) < (Real.sqrt (2 * Real.pi))⁻¹ := inv_pos.mpr sqrt_two_pi_pos
  have hb := normalCDF_poly_bound (1.0616) (by norm_num) (by norm_num) 9 (by norm_num)
  have hPl : (0.8918366 : ℝ) < gaussSeries 9 (1.0616) := by
    simp only [gaussSeries, Finset.sum_range_succ, Finset.sum_range_zero, Nat.factorial]
    norm_num
  have hPu : gaussSeries 9 (1.0616) < (0.8918367 : ℝ) := by
    simp only [gaussSeries, Finset.sum_range_succ, Finset.sum_range_zero, Nat.factorial]
    norm_num
  have hBle : ((1.0616:ℝ) ^ 2 / 2) ^ 9 * (((9:ℕ) + 1 : ℝ) / ((Nat.factorial 9 : ℝ) * (9:ℕ))) * (1.0616)
      ≤ 1/10000000 := by
    norm_num [Nat.factorial]
  have hb2 := le_trans hb (mul_le_mul_of_nonneg_left hBle hcpos.le)
  rw [abs_le] at hb2
  obtain ⟨hl, hr⟩ := hb2
  have hcPu : (Real.sqrt (2 * Real.pi))⁻¹ * gaussSeries 9 (1.0616)
      < 0.3989423 * 0.8918367 :=
    mul_lt_mul'' hcu hPu hcpos.le (by linarith)
  have hcPl : (0.3989422 : ℝ) * 0.8918366
      < (Real.sqrt (2 * Real.pi))⁻¹ * gaussSeries 9 (1.0616) :=
    mul_lt_mul'' hcl hPl (by norm_num) (by norm_num)
  have hcq : (Real.sqrt (2 * Real.pi))⁻¹ * (1/10000000) ≤ (0.3989423:ℝ)/10000000 := by
    nlinarith
  constructor <;> nlinarith

lemma d1_100_eq : d1 100 100 1 (1/20) (1/5) = 7/20 := by
  unfold d1
  rw [Real.sqrt_one, show (100:ℝ)/100 = 1 by norm_num, Real.log_one]
  norm_num

lemma d2_100_eq : d2 100 100 1 (1/20) (1/5) = 3/20 := by
  unfold d2
  rw [d1_100_eq, Real.sqrt_one]
  norm_num

lemma d1_120_bounds :
    (1.2616:ℝ) < d1 120 100 1 (1/20) (1/5) ∧ d1 120 100 1 (1/20) (1/5) < (1.26161:ℝ) := by
  obtain ⟨hl, hu⟩ := log_six_fifths_bounds
  unfold d1
  rw [Real.sqrt_one, show (120:ℝ)/100 = 6/5 by norm_num]
  constructor
  · rw [lt_div_iff (by norm_num : (0:ℝ) < (1/5) * 1)]
    linarith
  · rw [div_lt_iff (by norm_num : (0:ℝ) < (1/5) * 1)]
    linarith

lemma d2_120_eq :
    d2 120 100 1 (1/20) (1/5) = d1 120 100 1 (1/20) (1/5) - 1/5 := by
  unfold d2
  rw [Real.sqrt_one]
  norm_num

lemma normalCDF_d1_120_bounds :
    (0.896453:ℝ) < normalCDF (d1 120 100 1 (1/20) (1/5)) ∧
      normalCDF (d1 120 100 1 (1/20) (1/5)) < (0.896459:ℝ) := by
  obtain ⟨hd1l, hd1u⟩ := d1_120_bounds
  obtain ⟨hpl, hpu⟩ := normalCDF_12616_bounds
  have hcu := inv_sqrt_two_pi_ub
  have hcpos : (0:ℝ) < (Real.sqrt (2 * Real.pi))⁻¹ := inv_pos.mpr sqrt_two_pi_pos
  constructor
  · exact lt_of_lt_of_le hpl (normalCDF_mono hd1l.le)
  · have hlip := normalCDF_lipschitz hd1l.le
    nlinarith [hlip, hpu, hcpos, hcu, hd1u]

lemma normalCDF_d2_120_bounds :
    (0.855791:ℝ) < normalCDF (d2 120 100 1 (1/20) (1/5)) ∧
      normalCDF (d2 120 100 1 (1/20) (1/5)) < (0.855797:ℝ) := by
  obtain ⟨hd1l, hd1u⟩ := d1_120_bounds
  obtain ⟨hpl, hpu⟩ := normalCDF_10616_bounds
  have hcu := inv_sqrt_two_pi_ub
  have hcpos : (0:ℝ) < (Real.sqrt (2 * Real.pi))⁻¹ := inv_pos.mpr sqrt_two_pi_pos
  rw [d2_120_eq]
  have hdl : (1.0616:ℝ) ≤ d1 120 100 1 (1/20) (1/5) - 1/5 := by linarith
  constructor
  · exact lt_of_lt_of_le hpl (normalCDF_mono hdl)
  · have hlip := normalCDF_lipschitz hdl
    nlinarith [hlip, hpu, hcpos, hcu, hd1u]

lemma call100_bounds :
    (10.4504:ℝ) < callPrice 100 100 1 (1/20) (1/5) ∧
      callPrice 100 100 1 (1/20) (1/5) < (10.4507:ℝ) := by
  obtain ⟨h1l, h1u⟩ := normalCDF_35_bounds
  obtain ⟨h2l, h2u⟩ := normalCDF_15_bounds
  obtain ⟨hel, heu⟩ := exp_neg_twentieth_bounds
  have hrw : callPrice 100 100 1 (1/20) (1/5) =
      100 * normalCDF (7/20) - 100 * Real.exp (-(1/20)) * normalCDF (3/20) := by
    unfold callPrice
    rw [d1_100_eq, d2_100_eq]
    norm_num
  rw [hrw]
  have hprod_ub : Real.exp (-(1/20)) * normalCDF (3/20) < 0.95122943 * 0.559618 :=
    mul_lt_mul'' heu h2u (Real.exp_pos _).le (normalCDF_nonneg _)
  have hprod_lb : (0.95122942:ℝ) * 0.559617 < Real.exp (-(1/20)) * normalCDF (3/20) :=
    mul_lt_mul'' hel h2l (by norm_num) (by norm_num)
  constructor <;> nlinarith

lemma put100_bounds :
    (5.5733:ℝ) < putPrice 100 100 1 (1/20) (1/5) ∧
      putPrice 100 100 1 (1/20) (1/5) < (5.5737:ℝ) := by
  obtain ⟨hcl, hcu⟩ := call100_bounds
  obtain ⟨hel, heu⟩ := exp_neg_twentieth_bounds
  have hpar := put_call_parity 100 100 1 (1/20) (1/5)
  rw [show (-(1/20) * 1 : ℝ) = -(1/20) from by norm_num] at hpar
  constructor <;> linarith

lemma call120_bounds :
    (26.168:ℝ) < callPrice 120 100 1 (1/20) (1/5) ∧
      callPrice 120 100 1 (1/20) (1/5) < (26.1698:ℝ) := by
  obtain ⟨h1l, h1u⟩ := normalCDF_d1_120_bounds
  obtain ⟨h2l, h2u⟩ := normalCDF_d2_120_bounds
  obtain ⟨hel, heu⟩ := exp_neg_twentieth_bounds
  have hrw : callPrice 120 100 1 (1/20) (1/5) =
      120 * normalCDF (d1 120 100 1 (1/20) (1/5)) -
        100 * Real.exp (-(1/20)) * normalCDF (d2 120 100 1 (1/20) (1/5)) := by
    unfold callPrice
    norm_num
  rw [hrw]
  have hprod_ub : Real.exp (-(1/20)) * normalCDF (d2 120 100 1 (1/20) (1/5))
      < 0.95122943 * 0.855797 :=
    mul_lt_mul'' heu h2u (Real.exp_pos _).le (normalCDF_nonneg _)
  have hprod_lb : (0.95122942:ℝ) * 0.855791
      < Real.exp (-(1/20)) * normalCDF (d2 120 100 1 (1/20) (1/5)) :=
    mul_lt_mul'' hel h2l (by norm_num) (by norm_num)
  constructor <;> nlinarith

/-- C6 counterexample: the spec's second concrete scenario is wrong.  At
S=120, K=100, T=1, r=0.05, sigma=0.2 the Black-Scholes call price is about
26.17, not approximately 25.19: its distance to 25.19 exceeds 0.9. -/
theorem claim_C6_counterexample :
    (9:ℝ)/10 < |callPrice 120 100 1 (1/20) (1/5) - 25.19| := by
  obtain ⟨hl, hu⟩ := call120_bounds
  rw [abs_of_nonneg (by linarith)]
  linarith

/-- C6 amended: the first concrete scenario is as specified
(call ≈ 10.4506, put ≈ 5.5735 at S=K=100, T=1, r=0.05, sigma=0.2), while
the S=120 call price is approximately 26.17 (not 25.19). -/
theorem claim_C6_amended_values :
    |callPrice 100 100 1 (1/20) (1/5) - 10.4506| < 1/1000 ∧
    |putPrice 100 100 1 (1/20) (1/5) - 5.5735| < 1/1000 ∧
    |callPrice 120 100 1 (1/20) (1/5) - 26.17| < 1/100 := by
  obtain ⟨h1l, h1u⟩ := call100_bounds
  obtain ⟨h2l, h2u⟩ := put100_bounds
  obtain ⟨h3l, h3u⟩ := call120_bounds
  refine ⟨?_, ?_, ?_⟩ <;> rw [abs_lt] <;> constructor <;> linarith
